import Mathlib

/-!
Shallow embedding of the EEG signal-conditioning utilities of
`data-explore/util.py`: calibration (`raw_to_volts`), board-profile
resolution (`get_board_attributes`), the causal state-seeded filter chain
(`eeg_board_filter`, built on scipy's `lfilter` and `lfilter_zi`), the
one-sided FFT helper (`get_fft` with numpy's `fftfreq` labelling), and the
spectrogram wrapper (`plot_spectrogram`).

Real-valued samples are modelled as exact rationals; complex FFT bins as
pairs of rationals (re, im).  The transcendental coefficient designers
(`scipy.signal.butter`, `scipy.signal.iirnotch`) and the discrete Fourier
transforms (`np.fft.fft`, scipy's rFFT) produce irrational outputs, so the
embedded functions take them as function parameters; structural facts that
their true outputs satisfy (for instance, a Butterworth high-pass numerator
summing to zero, or a transform mapping the zero vector to the zero vector)
are stated as explicit hypotheses where a theorem needs them.
Python exceptions are modelled by `PyErr`.
-/

/-- Python exception kinds raised by `util.py` (the first four), plus the
exception class names introduced by the specification's error taxonomy;
the source never defines nor raises the latter four. -/
inductive PyErr
  | indexError
  | valueError
  | zeroDivisionError
  | unboundLocalError
  | configurationError
  | insufficientDataError
  | malformedIdentifierError
  | unsupportedBoardError
deriving DecidableEq, Repr

/-- Right-pad a coefficient list with zeros to length `n`
(scipy's `np.r_[a, zeros(n - len(a))]`). -/
def padTo (n : ℕ) (l : List ℚ) : List ℚ :=
  l ++ List.replicate (n - l.length) 0

/-- One sample of scipy `lfilter`'s direct-form-II-transposed update on
normalized (`a[0] = 1`), equal-length coefficient arrays:
`y = b[0]*x + z[0]` and `z'[k] = b[k+1]*x + z[k+1] - a[k+1]*y`, entries
past the end of `z` reading as 0. -/
def dfIIt_step (b a z : List ℚ) (x : ℚ) : ℚ × List ℚ :=
  let y := b.getD 0 0 * x + z.getD 0 0
  (y, (List.range z.length).map fun k =>
    b.getD (k + 1) 0 * x + z.getD (k + 1) 0 - a.getD (k + 1) 0 * y)

/-- Run the direct-form-II-transposed recurrence over a whole series,
returning the outputs together with the final delay-line state. -/
def dfIIt_run (b a z : List ℚ) : List ℚ → List ℚ × List ℚ
  | [] => ([], z)
  | x :: xs =>
    let s := dfIIt_step b a z x
    let r := dfIIt_run b a s.2 xs
    (s.1 :: r.1, r.2)

/-- `scipy.signal.lfilter(b, a, x, zi=zi)`: normalize both coefficient
arrays by `a[0]`, zero-pad them to a common length, then run the direct
form II transposed recurrence from the delay-line state `zi`.  Returns the
filtered series and the final state. -/
def lfilter (b a x zi : List ℚ) : List ℚ × List ℚ :=
  let a0 := a.getD 0 0
  let n := max a.length b.length
  dfIIt_run (padTo n (b.map fun v => v / a0)) (padTo n (a.map fun v => v / a0)) zi x

/-- Steady-state delay-line vector for normalized, equal-length coefficient
arrays: scipy `lfilter_zi`'s solution of `zi = A*zi + B` written in the
closed form its loop computes (`zi[0] = B.sum() / (I - A)[:, 0].sum()`,
then `zi[k] = asum_k * zi[0] - csum_k` with the running sums
`asum_k = 1 + a[1] + ... + a[k]` and
`csum_k = (b[1] - a[1]*b[0]) + ... + (b[k] - a[k]*b[0])`). -/
def ziSS (b a : List ℚ) : List ℚ :=
  let bt := b.drop 1
  let at' := a.drop 1
  let zi0 := (bt.sum - b.getD 0 0 * at'.sum) / (1 + at'.sum)
  (List.range (a.length - 1)).map fun k =>
    (1 + (at'.take k).sum) * zi0
      - ((bt.take k).sum - b.getD 0 0 * (at'.take k).sum)

/-- `scipy.signal.lfilter_zi(b, a)`: normalize by `a[0]`, zero-pad to a
common length, and return the step-response steady state of the filter. -/
def lfilter_zi (b a : List ℚ) : List ℚ :=
  let a0 := a.getD 0 0
  let n := max a.length b.length
  ziSS (padTo n (b.map fun v => v / a0)) (padTo n (a.map fun v => v / a0))

/-- Butterworth band type passed to `scipy.signal.butter`. -/
inductive BType
  | lowpass
  | highpass
deriving DecidableEq, Repr

/-- `eeg_board_filter(signal, Fs, order, lowcut, highcut, notch_q)`: the
causal, state-seeded filter chain.  The transcendental coefficient
designers `scipy.signal.butter` and `scipy.signal.iirnotch` are the
parameters `butterD` and `iirnotchD` (each returning a `(b, a)` pair).
The source indexes `signal[0]`, so an empty series raises `IndexError`;
each later stage reads the first sample of its own (same-length, hence
nonempty) input, so `headD` is exact there. -/
def eeg_board_filter (butterD : ℕ → ℚ → BType → List ℚ × List ℚ)
    (iirnotchD : ℚ → ℚ → List ℚ × List ℚ)
    (signal : List ℚ) (Fs : ℚ) (order : ℕ)
    (lowcut highcut notch_q : ℚ) : Except PyErr (List ℚ) :=
  if signal.isEmpty then .error .indexError else
  let nyq := 0.5 * Fs
  let hp := butterD order (lowcut / nyq) .highpass
  let zi_high := (lfilter_zi hp.1 hp.2).map fun v => v * signal.headD 0
  let s1 := (lfilter hp.1 hp.2 signal zi_high).1
  let n50 := iirnotchD (50 / nyq) notch_q
  let zi_notch50 := (lfilter_zi n50.1 n50.2).map fun v => v * s1.headD 0
  let s2 := (lfilter n50.1 n50.2 s1 zi_notch50).1
  let n60 := iirnotchD (60 / nyq) notch_q
  let zi_notch60 := (lfilter_zi n60.1 n60.2).map fun v => v * s2.headD 0
  let s3 := (lfilter n60.1 n60.2 s2 zi_notch60).1
  let lp := butterD order (highcut / nyq) .lowpass
  let zi_low := (lfilter_zi lp.1 lp.2).map fun v => v * s3.headD 0
  .ok (lfilter lp.1 lp.2 s3 zi_low).1

/-- One stage of the chain: seed the delay line with the filter's steady
state scaled by the first sample of the stage's own input, filter, and
discard the final state. -/
def seededStage (ba : List ℚ × List ℚ) (x : List ℚ) : List ℚ :=
  (lfilter ba.1 ba.2 x ((lfilter_zi ba.1 ba.2).map fun v => v * x.headD 0)).1

/-- `raw_to_volts(data, vref, avss, gain)`: maps an ADC code to volts around
the mid-rail voltage, with the divisor hardcoded to `2**23`.  The scalar
division `(vref - avss) / gain` raises `ZeroDivisionError` when `gain` is
zero; no other validation exists. -/
def raw_to_volts (data vref avss gain : ℚ) : Except PyErr ℚ :=
  if gain = 0 then .error .zeroDivisionError else
  let vmid := (vref + avss) / 2
  .ok (vmid + data / 2 ^ 23 * ((vref - avss) / gain))

/-- Model of Python's `str.split(sep)` for a one-character separator, at
character level: consecutive separators yield empty fields, and a string
with no separator yields the single field holding the whole string. -/
def splitChars (sep : Char) : List Char → List (List Char)
  | [] => [[]]
  | c :: cs =>
    let r := splitChars sep cs
    if c = sep then [] :: r
    else
      match r with
      | [] => [[c]]
      | g :: gs => (c :: g) :: gs

/-- Decimal value of a digit string (`'0'` has code 48). -/
def digitsVal (cs : List Char) : ℕ :=
  cs.foldl (fun n c => 10 * n + (c.toNat - 48)) 0

/-- Model of Python's `float()` on plain decimal literals: an optional
leading minus, then digits with at most one decimal point and at least one
digit in total.  Any other input, in particular the empty string, raises
`ValueError`, modelled as `none`. -/
def pyFloat (s : List Char) : Option ℚ :=
  let neg := s.headD ' ' = '-'
  let t := if neg then s.drop 1 else s
  let v : Option ℚ :=
    match splitChars '.' t with
    | [i] =>
      if 0 < i.length ∧ i.all Char.isDigit then some ((digitsVal i : ℕ) : ℚ) else none
    | [i, f] =>
      if (0 < i.length ∨ 0 < f.length) ∧ i.all Char.isDigit ∧ f.all Char.isDigit then
        some (((digitsVal i : ℕ) : ℚ) + ((digitsVal f : ℕ) : ℚ) / 10 ^ f.length)
      else none
    | _ => none
  v.map fun m => if neg then -m else m

/-- The tuple returned by `get_board_attributes` (the board name is kept as
its character list). -/
structure BoardAttrs where
  board : List Char
  gain : ℚ
  Fs : ℚ
  vref : ℚ
  avss : ℚ
  resolution : ℕ
  vmid : ℚ
deriving DecidableEq, Repr

/-- `get_board_attributes(fname)`: positional, delimiter-split parsing of a
dataset file name.  `fname.split('_')[3]` raises `IndexError` when fewer
than four tokens are present; `float(fname.split('_')[2][4:])` on a
malformed gain token raises `ValueError`; for any board other than
`boardAds1299` the variables `vref`, `avss`, `resolution` are never
assigned, so the later read of `vref` when computing `vmid` raises
`UnboundLocalError`. -/
def get_board_attributes (fname : String) : Except PyErr BoardAttrs :=
  let toks := splitChars '_' fname.toList
  if toks.length ≤ 3 then .error .indexError else
  let board := toks.getD 3 []
  match pyFloat ((toks.getD 2 []).drop 4) with
  | none => .error .valueError
  | some gain =>
    let Fs : ℚ := 250
    if board = "boardAds1299".toList then
      let vref : ℚ := 4.5
      let avss : ℚ := 0
      let resolution : ℕ := 24
      .ok ⟨board, gain, Fs, vref, avss, resolution, (vref + avss) / 2⟩
    else .error .unboundLocalError

/-- `np.fft.fftfreq(n, d)`: bin `k` is labelled `k/(d*n)` for
`k < (n+1)/2` and `(k-n)/(d*n)` otherwise, so for even `n` the Nyquist bin
`k = n/2` is labelled with the negative frequency `-1/(2*d)`. -/
def fftfreq (n : ℕ) (d : ℚ) : List ℚ :=
  (List.range n).map fun k =>
    if k < (n + 1) / 2 then (k : ℚ) / (d * n) else ((k : ℚ) - n) / (d * n)

/-- Squared complex magnitude `np.abs(v)**2` of an `(re, im)` bin. -/
def normSq (z : ℚ × ℚ) : ℚ := z.1 ^ 2 + z.2 ^ 2

/-- `get_fft(signal, Fs)`.  The transform `np.fft.fft` is the parameter
`fft` (its true value is transcendental); the boolean mask
`fft_freqs > 0`, applied in parallel to values and frequencies, is
modelled by filtering the zipped lists.  Returns
`(fft_vals, fft_freqs, fft_power)` with `power = |v|^2 / N`. -/
def get_fft (fft : List ℚ → List (ℚ × ℚ)) (signal : List ℚ) (Fs : ℚ) :
    List (ℚ × ℚ) × List ℚ × List ℚ :=
  let N := signal.length
  let fft_vals := fft signal
  let fft_freqs := fftfreq N (1 / Fs)
  let kept := (fft_freqs.zip fft_vals).filter fun p => decide (0 < p.1)
  let vals := kept.map fun p => p.2
  let freqs := kept.map fun p => p.1
  (vals, freqs, vals.map fun v => normSq v / N)

/-- Mean removal per segment (`detrend='constant'`, the scipy default
inside `scipy.signal.spectrogram`). -/
def detrendConst (seg : List ℚ) : List ℚ :=
  seg.map fun v => v - seg.sum / seg.length

/-- The consecutive length-`nperseg` windows of `x` spaced `step` apart
(the strided segmentation of scipy's `_fft_helper`). -/
def stftSegments (x : List ℚ) (nperseg step : ℕ) : List (List ℚ) :=
  if x.length < nperseg ∨ step = 0 then []
  else (List.range ((x.length - nperseg) / step + 1)).map fun k =>
    (x.drop (k * step)).take nperseg

/-- One-sided PSD of a single segment: detrend, multiply by the window,
take squared rFFT magnitudes scaled by `1/(Fs*sum(win**2))` (density
scaling), and double every bin except DC and, for even `nperseg`, the
Nyquist bin. -/
def segPsd (rfft : List ℚ → List (ℚ × ℚ)) (win : List ℚ) (Fs : ℚ)
    (nperseg : ℕ) (seg : List ℚ) : List ℚ :=
  let scale := 1 / (Fs * (win.map fun w => w ^ 2).sum)
  let X := rfft (List.zipWith (fun w v => w * v) win (detrendConst seg))
  (List.range X.length).map fun k =>
    let p := normSq (X.getD k (0, 0)) * scale
    if k = 0 ∨ (nperseg % 2 = 0 ∧ k = X.length - 1) then p else 2 * p

/-- `scipy.signal.spectrogram(x, fs, window, nperseg, noverlap,
scaling='density')` in its default `'psd'` mode, parametrised by the rFFT
and by the window sample vector (the source passes `'hamming'`, whose
samples are transcendental).  Returns `(f, t, Sxx)`; `Sxx` is stored
segment-major. -/
def spectrogram (rfft : List ℚ → List (ℚ × ℚ)) (win : List ℚ)
    (x : List ℚ) (Fs : ℚ) (nperseg noverlap : ℕ) :
    List ℚ × List ℚ × List (List ℚ) :=
  let step := nperseg - noverlap
  let segs := stftSegments x nperseg step
  let f := (List.range (nperseg / 2 + 1)).map fun k => (k : ℚ) * Fs / nperseg
  let t := (List.range segs.length).map fun k =>
    ((nperseg : ℚ) / 2 + (k : ℚ) * (step : ℚ)) / Fs
  (f, t, segs.map (segPsd rfft win Fs nperseg))

/-- `plot_spectrogram(df_col, Fs, highcut_hz, nperseg, noverlap)`: computes
the scipy spectrogram (default overlap `nperseg // 2`) and returns the raw
`(f, t, Sxx)` triple.  The decibel image `10*log10(Sxx + 1e-10)` is only
handed to `pcolormesh` for display, and `highcut_hz` only sets the plot's
y-limit; neither affects the returned values. -/
def plot_spectrogram (rfft : List ℚ → List (ℚ × ℚ)) (win : List ℚ)
    (df_col : List ℚ) (Fs : ℚ) (highcut_hz : ℚ) (nperseg : ℕ)
    (noverlap : Option ℕ) : List ℚ × List ℚ × List (List ℚ) :=
  spectrogram rfft win df_col Fs nperseg (noverlap.getD (nperseg / 2))

/-- A concrete rational instance of the `scipy.signal.butter` parameter,
used for closed evaluations.  At `order = 1`, `Wn = 1/2` scipy's exact
output is `b = [1/2, -1/2]`, `a = [1, 0]` (high-pass) and
`b = [1/2, 1/2]`, `a = [1, 0]` (low-pass); higher orders here just zero-pad
those coefficients to the order-`n` array lengths, preserving the
structural facts every Butterworth design satisfies (`a[0] = 1`; numerator
summing to 0 for high-pass, denominator sum nonzero). -/
def butterDemo : ℕ → ℚ → BType → List ℚ × List ℚ := fun order _ bt =>
  match bt with
  | .highpass => (1/2 :: -1/2 :: List.replicate (order - 1) 0, 1 :: List.replicate order 0)
  | .lowpass => (1/2 :: 1/2 :: List.replicate (order - 1) 0, 1 :: List.replicate order 0)

/-- A concrete rational instance of the `scipy.signal.iirnotch` parameter:
`iirnotch(0.5, 1)`'s exact output `b = [1/2, 0, 1/2]`, `a = [1, 0, 0]`
(`cos(pi/2) = 0`, `1/(1 + tan(pi/4)) = 1/2`), which has the unit DC gain
(`sum b = sum a`) every notch design satisfies. -/
def iirnotchDemo : ℚ → ℚ → List ℚ × List ℚ := fun _ _ => ([1/2, 0, 1/2], [1, 0, 0])

/-- A concrete length-preserving instance of the `np.fft.fft` parameter of
`get_fft`, for closed evaluations of the mask-and-power plumbing (which is
independent of the transform's values). -/
def fftDemo : List ℚ → List (ℚ × ℚ) := fun l => l.map fun q => (q, 0)

/-- A concrete instance of the rFFT parameter of the spectrogram model: it
returns `nperseg/2 + 1` bins and sends zero vectors to zero vectors, as the
true rFFT does. -/
def rfftDemo : List ℚ → List (ℚ × ℚ) := fun l =>
  (l.take (l.length / 2 + 1)).map fun q => (q, 0)

/-- Entry `k` of the steady-state vector `ziSS (b0 :: bT) (1 :: aT)`,
exposed as a function of `k` for the steady-state invariant proofs. -/
def ziPhi (b0 : ℚ) (bT aT : List ℚ) (k : ℕ) : ℚ :=
  (1 + (aT.take k).sum) * ((bT.sum - b0 * aT.sum) / (1 + aT.sum))
    - ((bT.take k).sum - b0 * (aT.take k).sum)

/-- Entries of `List.replicate _ 0` read through `getD` with default 0 are
always 0, in or out of range. -/
theorem getD_replicate_zero (m k : ℕ) : (List.replicate m (0:ℚ)).getD k 0 = 0 := by
  induction m generalizing k with
  | zero => simp
  | succ j ih =>
    cases k with
    | zero => simp
    | succ i => simpa [List.replicate_succ] using ih i

/-- Reading a mapped range through `getD`, inside the range. -/
theorem getD_map_range (φ : ℕ → ℚ) (m j : ℕ) (hj : j < m) :
    ((List.range m).map φ).getD j 0 = φ j := by
  rw [List.getD_eq_getElem?_getD, List.getElem?_map, List.getElem?_range hj]
  rfl

/-- Reading a mapped range through `getD`, past the end. -/
theorem getD_map_range_ge (φ : ℕ → ℚ) (m j : ℕ) (hj : m ≤ j) :
    ((List.range m).map φ).getD j 0 = 0 := by
  rw [List.getD_eq_getElem?_getD, List.getElem?_eq_none (by simpa using hj)]
  rfl

/-- The direct-form-II-transposed run emits one output sample per input
sample. -/
theorem dfIIt_run_fst_length (b a x : List ℚ) : ∀ z, (dfIIt_run b a z x).1.length = x.length := by
  induction x with
  | nil => intro z; simp [dfIIt_run]
  | cons y ys ih => intro z; simp [dfIIt_run, ih]

/-- `lfilter` preserves the series length. -/
theorem lfilter_fst_length (b a x zi : List ℚ) : (lfilter b a x zi).1.length = x.length := by
  simp [lfilter, dfIIt_run_fst_length]

/-- A seeded stage preserves the series length. -/
theorem seededStage_length (ba : List ℚ × List ℚ) (x : List ℚ) :
    (seededStage ba x).length = x.length := by
  simp [seededStage, lfilter_fst_length]

/-- If one update step fixes the delay-line state, the whole run over a
constant series emits a constant series and ends in the same state. -/
theorem dfIIt_run_fix (b a z : List ℚ) (c y : ℚ) (h : dfIIt_step b a z c = (y, z)) (m : ℕ) :
    dfIIt_run b a z (List.replicate m c) = (List.replicate m y, z) := by
  induction m with
  | zero => simp [dfIIt_run]
  | succ k ih => simp [List.replicate_succ, dfIIt_run, h, ih]

/-- The all-zero delay line is a fixpoint of the update on a zero sample,
with zero output. -/
theorem dfIIt_step_zero (b a : List ℚ) (m : ℕ) :
    dfIIt_step b a (List.replicate m 0) 0 = (0, List.replicate m 0) := by
  simp [dfIIt_step, getD_replicate_zero]

/-- A seeded stage maps the all-zero series to the all-zero series: the
seed `lfilter_zi * 0` is the zero state, which the zero input never
perturbs. -/
theorem seededStage_zero (ba : List ℚ × List ℚ) (n : ℕ) :
    seededStage ba (List.replicate n 0) = List.replicate n 0 := by
  have hmap : ((lfilter_zi ba.1 ba.2).map fun v => v * (List.replicate n (0:ℚ)).headD 0)
      = List.replicate (lfilter_zi ba.1 ba.2).length 0 := by
    cases n <;> simp [List.replicate_succ, List.map_const']
  simp only [seededStage, lfilter, hmap]
  rw [dfIIt_run_fix _ _ _ _ _ (dfIIt_step_zero _ _ _)]

/-- The chain, for a nonempty input, is exactly the four seeded stages in
order: high-pass at `lowcut/nyq`, notch at `50/nyq`, notch at `60/nyq`,
low-pass at `highcut/nyq`. -/
theorem eeg_board_filter_decomp (butterD : ℕ → ℚ → BType → List ℚ × List ℚ)
    (iirnotchD : ℚ → ℚ → List ℚ × List ℚ) (signal : List ℚ) (Fs : ℚ) (order : ℕ)
    (lowcut highcut notch_q : ℚ) (h : signal ≠ []) :
    eeg_board_filter butterD iirnotchD signal Fs order lowcut highcut notch_q
      = .ok (seededStage (butterD order (highcut / (0.5 * Fs)) .lowpass)
          (seededStage (iirnotchD (60 / (0.5 * Fs)) notch_q)
            (seededStage (iirnotchD (50 / (0.5 * Fs)) notch_q)
              (seededStage (butterD order (lowcut / (0.5 * Fs)) .highpass) signal)))) := by
  have hi : signal.isEmpty = false := by simpa [List.isEmpty_iff] using h
  simp [eeg_board_filter, seededStage, hi]

/-- On a normalized cons-form pair, `ziSS` is the `ziPhi` family. -/
theorem ziSS_cons (b0 : ℚ) (bT aT : List ℚ) :
    ziSS (b0 :: bT) (1 :: aT) = (List.range aT.length).map (ziPhi b0 bT aT) := rfl

/-- The first steady-state entry is `zi[0] = B.sum / (I - A)` column sum. -/
theorem ziPhi_zero (b0 : ℚ) (bT aT : List ℚ) :
    ziPhi b0 bT aT 0 = (bT.sum - b0 * aT.sum) / (1 + aT.sum) := by
  simp [ziPhi]

/-- Extending the steady-state formula one index past the end of the state
vector evaluates to 0 (the closing telescoping identity). -/
theorem ziPhi_last (b0 : ℚ) (bT aT : List ℚ) (hm : bT.length = aT.length)
    (hSS : (1 : ℚ) + aT.sum ≠ 0) : ziPhi b0 bT aT aT.length = 0 := by
  have hta : aT.take aT.length = aT := List.take_length aT
  have htb : bT.take aT.length = bT := by rw [← hm]; exact List.take_length bT
  rw [ziPhi, hta, htb]
  field_simp

/-- Telescoping recurrence between consecutive steady-state entries. -/
theorem ziPhi_succ (b0 : ℚ) (bT aT : List ℚ) (k : ℕ)
    (hka : k < aT.length) (hkb : k < bT.length) :
    ziPhi b0 bT aT (k + 1)
      = ziPhi b0 bT aT k + aT.getD k 0 * ((bT.sum - b0 * aT.sum) / (1 + aT.sum))
        - bT.getD k 0 + b0 * aT.getD k 0 := by
  have hA := List.sum_take_succ aT k hka
  have hB := List.sum_take_succ bT k hkb
  simp only [ziPhi, hA, hB, List.get_eq_getElem, ← List.getD_eq_getElem aT 0 hka,
    ← List.getD_eq_getElem bT 0 hkb]
  ring

/-- On normalized, equal-length coefficient arrays, the steady-state delay
line scaled by `c` is a fixpoint of the update under the constant input
`c`, and the output sample is the DC gain `sum b / sum a` times `c`. -/
theorem dfIIt_step_steady (b0 : ℚ) (bT aT : List ℚ) (hm : bT.length = aT.length)
    (hSS : (1 : ℚ) + aT.sum ≠ 0) (c : ℚ) :
    dfIIt_step (b0 :: bT) (1 :: aT) ((ziSS (b0 :: bT) (1 :: aT)).map fun v => v * c) c
      = ((b0 :: bT).sum / (1 :: aT).sum * c,
          (ziSS (b0 :: bT) (1 :: aT)).map fun v => v * c) := by
  rw [ziSS_cons, List.map_map]
  rcases Nat.eq_zero_or_pos aT.length with hm0 | hmpos
  · have haT : aT = [] := List.length_eq_zero.mp hm0
    have hbT : bT = [] := List.length_eq_zero.mp (by omega)
    subst haT; subst hbT
    simp [dfIIt_step]
  · have h0 : ((List.range aT.length).map ((fun v => v * c) ∘ ziPhi b0 bT aT)).getD 0 0
        = ziPhi b0 bT aT 0 * c := by
      simpa using getD_map_range ((fun v => v * c) ∘ ziPhi b0 bT aT) aT.length 0 hmpos
    simp only [dfIIt_step]
    rw [Prod.mk.injEq]
    constructor
    · rw [h0, ziPhi_zero]
      rw [List.sum_cons, List.sum_cons]
      field_simp
      ring
    · have hlen : ((List.range aT.length).map ((fun v => v * c) ∘ ziPhi b0 bT aT)).length
          = aT.length := by simp
      rw [hlen]
      refine List.map_congr_left ?_
      intro k hk
      have hka : k < aT.length := List.mem_range.mp hk
      have hkb : k < bT.length := by omega
      have h1 : ((List.range aT.length).map ((fun v => v * c) ∘ ziPhi b0 bT aT)).getD (k + 1) 0
          = ziPhi b0 bT aT (k + 1) * c := by
        rcases Nat.lt_or_ge (k + 1) aT.length with h | h
        · simpa using getD_map_range ((fun v => v * c) ∘ ziPhi b0 bT aT) aT.length (k + 1) h
        · have he : k + 1 = aT.length := by omega
          rw [getD_map_range_ge _ _ _ h, he, ziPhi_last b0 bT aT hm hSS, zero_mul]
      simp only [List.getD_cons_succ, List.getD_cons_zero, Function.comp_apply]
      rw [h1, h0, ziPhi_succ b0 bT aT k hka hkb, ziPhi_zero]
      ring

/-- Sums divide through `map (· / r)`. -/
theorem sum_map_div (l : List ℚ) (r : ℚ) : (l.map fun v => v / r).sum = l.sum / r := by
  induction l with
  | nil => simp
  | cons x xs ih => simp [ih, add_div]

/-- Zero-padding does not change the sum. -/
theorem padTo_sum (n : ℕ) (l : List ℚ) : (padTo n l).sum = l.sum := by
  simp [padTo]

/-- Zero-padding to at least the current length gives exactly length `n`. -/
theorem padTo_length (n : ℕ) (l : List ℚ) (h : l.length ≤ n) : (padTo n l).length = n := by
  simp [padTo]
  omega

/-- A seeded stage maps the constant series `c, ..., c` to the constant
series at the filter's DC gain `sum b / sum a` times `c`.  The hypotheses
(leading denominator coefficient nonzero, denominator sum nonzero) hold for
every filter the source designs. -/
theorem seededStage_const (ba : List ℚ × List ℚ) (ha0 : ba.2.getD 0 0 ≠ 0)
    (hS : ba.2.sum ≠ 0) (n : ℕ) (c : ℚ) :
    seededStage ba (List.replicate n c) = List.replicate n (ba.1.sum / ba.2.sum * c) := by
  obtain ⟨b, a⟩ := ba
  simp only at ha0 hS ⊢
  cases a with
  | nil => simp at ha0
  | cons a0 aT0 =>
    have ha0' : a0 ≠ 0 := by simpa using ha0
    cases n with
    | zero => simp [seededStage, lfilter, dfIIt_run]
    | succ m =>
      have hh : (List.replicate (m + 1) c).headD 0 = c := by simp [List.replicate_succ]
      simp only [seededStage, lfilter, lfilter_zi, List.getD_cons_zero, hh]
      have hb'ex : padTo (max (a0 :: aT0).length b.length) (b.map fun v => v / a0) ≠ [] := by
        have h1 : b.length ≤ max (a0 :: aT0).length b.length := le_max_right _ _
        have := padTo_length (max (a0 :: aT0).length b.length) (b.map fun v => v / a0)
          (by simpa using h1)
        intro hnil
        rw [hnil] at this
        simp at this
        omega
      obtain ⟨b0', bT', hb'⟩ := List.exists_cons_of_ne_nil hb'ex
      have ha' : padTo (max (a0 :: aT0).length b.length) ((a0 :: aT0).map fun v => v / a0)
          = 1 :: (aT0.map (fun v => v / a0)
              ++ List.replicate (max (a0 :: aT0).length b.length - (aT0.length + 1)) 0) := by
        simp [padTo, div_self ha0']
      have hm : bT'.length
          = (aT0.map (fun v => v / a0)
              ++ List.replicate (max (a0 :: aT0).length b.length - (aT0.length + 1)) 0).length := by
        have h1 : (b0' :: bT').length = max (a0 :: aT0).length b.length := by
          rw [← hb']
          exact padTo_length _ _ (by simp [le_max_right])
        have h2 : aT0.length + 1 ≤ max (a0 :: aT0).length b.length := by
          have := le_max_left (a0 :: aT0).length b.length
          simpa using this
        simp at h1 ⊢
        omega
      have hSS : (1 : ℚ)
          + (aT0.map (fun v => v / a0)
              ++ List.replicate (max (a0 :: aT0).length b.length - (aT0.length + 1)) 0).sum ≠ 0 := by
        have hsum : (aT0.map (fun v => v / a0)
            ++ List.replicate (max (a0 :: aT0).length b.length - (aT0.length + 1)) 0).sum
            = aT0.sum / a0 := by
          simp [sum_map_div]
        rw [hsum]
        have hS' : a0 + aT0.sum ≠ 0 := by simpa using hS
        intro hcon
        apply hS'
        have : (a0 + aT0.sum) / a0 = 0 := by
          rw [add_div, div_self ha0']
          linarith [hcon]
        rcases div_eq_zero_iff.mp this with h | h
        · exact h
        · exact absurd h ha0'
      rw [hb', ha']
      rw [dfIIt_run_fix _ _ _ _ _ (dfIIt_step_steady b0' bT' _ hm hSS c)]
      have hbsum : (b0' :: bT').sum = b.sum / a0 := by
        rw [← hb', padTo_sum, sum_map_div]
      have hasum : (1 :: (aT0.map (fun v => v / a0)
          ++ List.replicate (max (a0 :: aT0).length b.length - (aT0.length + 1)) 0)).sum
          = (a0 :: aT0).sum / a0 := by
        rw [← ha', padTo_sum, sum_map_div]
      have hdc : (b0' :: bT').sum / (1 :: (aT0.map (fun v => v / a0)
          ++ List.replicate (max (a0 :: aT0).length b.length - (aT0.length + 1)) 0)).sum
          = b.sum / (a0 :: aT0).sum := by
        rw [hbsum, hasum, div_div_div_cancel_right₀]
        exact ha0'
      rw [hdc]

/-- C1: for every coefficient-designer pair and every nonempty input
series, the chain is exactly the four seeded stages applied in strict
order — high-pass Butterworth at `lowcut/nyq`, notch at `50/nyq`, notch at
`60/nyq`, low-pass Butterworth at `highcut/nyq` — where each stage seeds
its delay line with the filter's steady state (`lfilter_zi`) scaled by the
first sample of that stage's own input and discards the state afterwards
(`seededStage`), and the output series has the same length as the input
series. -/
theorem eeg_board_filter_four_stage_order
    (butterD : ℕ → ℚ → BType → List ℚ × List ℚ)
    (iirnotchD : ℚ → ℚ → List ℚ × List ℚ) (signal : List ℚ) (Fs : ℚ) (order : ℕ)
    (lowcut highcut notch_q : ℚ) (h : signal ≠ []) :
    eeg_board_filter butterD iirnotchD signal Fs order lowcut highcut notch_q
      = .ok (seededStage (butterD order (highcut / (0.5 * Fs)) .lowpass)
          (seededStage (iirnotchD (60 / (0.5 * Fs)) notch_q)
            (seededStage (iirnotchD (50 / (0.5 * Fs)) notch_q)
              (seededStage (butterD order (lowcut / (0.5 * Fs)) .highpass) signal))))
      ∧ ∀ y, eeg_board_filter butterD iirnotchD signal Fs order lowcut highcut notch_q
          = .ok y → y.length = signal.length := by
  refine ⟨eeg_board_filter_decomp _ _ _ _ _ _ _ _ h, fun y hy => ?_⟩
  rw [eeg_board_filter_decomp _ _ _ _ _ _ _ _ h] at hy
  cases hy
  simp [seededStage_length]

/-- Witness for the chain-structure theorem at a concrete two-sample series
and concrete rational designer instances. -/
theorem eeg_board_filter_four_stage_order_witness :
    ([1, 2] : List ℚ) ≠ [] ∧
      eeg_board_filter butterDemo iirnotchDemo [1, 2] 250 1 (1/2) 45 30
        = .ok (seededStage (butterDemo 1 (45 / (0.5 * 250)) .lowpass)
            (seededStage (iirnotchDemo (60 / (0.5 * 250)) 30)
              (seededStage (iirnotchDemo (50 / (0.5 * 250)) 30)
                (seededStage (butterDemo 1 ((1/2 : ℚ) / (0.5 * 250)) .highpass) [1, 2])))) :=
  ⟨by simp,
    (eeg_board_filter_four_stage_order butterDemo iirnotchDemo [1, 2] 250 1 (1/2) 45 30
      (by simp)).1⟩

/-- C9 counterexample: on the empty (trivially all-zero) series the chain
does not return that series — it raises `IndexError` from `signal[0]`. -/
theorem eeg_board_filter_empty_zero_series_errors :
    eeg_board_filter butterDemo iirnotchDemo [] 250 1 (1/2) 45 30 = .error .indexError ∧
      eeg_board_filter butterDemo iirnotchDemo [] 250 1 (1/2) 45 30 ≠ .ok [] := by
  constructor
  · simp [eeg_board_filter]
  · simp [eeg_board_filter]

/-- C9 amended: for every designer pair, every parameter set and every
nonzero length, the chain maps the all-zero series to the all-zero series
of the same length, exactly. -/
theorem eeg_board_filter_zero_series
    (butterD : ℕ → ℚ → BType → List ℚ × List ℚ)
    (iirnotchD : ℚ → ℚ → List ℚ × List ℚ) (Fs : ℚ) (order : ℕ)
    (lowcut highcut notch_q : ℚ) (n : ℕ) (hn : n ≠ 0) :
    eeg_board_filter butterD iirnotchD (List.replicate n 0) Fs order lowcut highcut notch_q
      = .ok (List.replicate n 0) := by
  have h : (List.replicate n (0 : ℚ)) ≠ [] := by
    simp [Ne, List.replicate_eq_nil, hn]
  rw [eeg_board_filter_decomp _ _ _ _ _ _ _ _ h]
  simp [seededStage_zero]

/-- Witness: the zero series of length 2 passes through unchanged. -/
theorem eeg_board_filter_zero_series_witness :
    (2 : ℕ) ≠ 0 ∧
      eeg_board_filter butterDemo iirnotchDemo (List.replicate 2 0) 250 1 (1/2) 45 30
        = .ok (List.replicate 2 0) :=
  ⟨by decide,
    eeg_board_filter_zero_series butterDemo iirnotchDemo 250 1 (1/2) 45 30 2 (by decide)⟩

/-- C6 counterexample: with filter order 4, the one-sample series `[1]`
(certainly not exceeding an order-determined minimum length) is filtered
and returned rather than rejected: there is no length validation and no
`InsufficientDataError` anywhere in the code. -/
theorem eeg_board_filter_short_series_returns :
    eeg_board_filter butterDemo iirnotchDemo [1] 250 4 (1/2) 45 30 = .ok [0] ∧
      eeg_board_filter butterDemo iirnotchDemo [1] 250 4 (1/2) 45 30
        ≠ .error .insufficientDataError := by
  have h : eeg_board_filter butterDemo iirnotchDemo [1] 250 4 (1/2) 45 30 = .ok [0] := by
    rw [eeg_board_filter_decomp _ _ _ _ _ _ _ _ (by simp)]
    norm_num [seededStage, lfilter, lfilter_zi, ziSS, padTo, dfIIt_run, dfIIt_step,
      butterDemo, iirnotchDemo, List.range_succ]
  exact ⟨h, by rw [h]; simp⟩

/-- C6 amended: the chain performs no length validation: every nonempty
series, however short relative to the filter order, is filtered and a
same-length output is returned; only the empty series fails, with
`IndexError`. -/
theorem eeg_board_filter_no_length_validation
    (butterD : ℕ → ℚ → BType → List ℚ × List ℚ)
    (iirnotchD : ℚ → ℚ → List ℚ × List ℚ) (signal : List ℚ) (Fs : ℚ) (order : ℕ)
    (lowcut highcut notch_q : ℚ) (h : signal ≠ []) :
    (eeg_board_filter butterD iirnotchD signal Fs order lowcut highcut notch_q).map
        List.length = .ok signal.length := by
  rw [eeg_board_filter_decomp _ _ _ _ _ _ _ _ h]
  simp [Except.map, seededStage_length]

/-- Witness: the amended no-validation theorem applied to `[1]` with
order 4. -/
theorem eeg_board_filter_no_length_validation_witness :
    ([1] : List ℚ) ≠ [] ∧
      (eeg_board_filter butterDemo iirnotchDemo [1] 250 4 (1/2) 45 30).map List.length
        = .ok ([1] : List ℚ).length :=
  ⟨by simp,
    eeg_board_filter_no_length_validation butterDemo iirnotchDemo [1] 250 4 (1/2) 45 30
      (by simp)⟩

/-- C2 counterexample: at concrete, exactly-representable valid
coefficients (order-1 Butterworth at `Wn = 1/2`, `iirnotch(1/2, 1)`), the
chain maps the constant series `[1, 1, 1]` to `[0, 0, 0]`, not to itself:
the seeded high-pass stage multiplies the constant by its DC gain 0. -/
theorem eeg_board_filter_const_not_preserved :
    eeg_board_filter butterDemo iirnotchDemo [1, 1, 1] 250 1 (1/2) 45 30 = .ok [0, 0, 0] ∧
      eeg_board_filter butterDemo iirnotchDemo [1, 1, 1] 250 1 (1/2) 45 30 ≠ .ok [1, 1, 1] := by
  have h : eeg_board_filter butterDemo iirnotchDemo [1, 1, 1] 250 1 (1/2) 45 30
      = .ok [0, 0, 0] := by
    rw [eeg_board_filter_decomp _ _ _ _ _ _ _ _ (by simp)]
    norm_num [seededStage, lfilter, lfilter_zi, ziSS, padTo, dfIIt_run, dfIIt_step,
      butterDemo, iirnotchDemo, List.range_succ]
  exact ⟨h, by rw [h]; simp⟩

/-- C2 amended: whenever the designed high-pass numerator sums to 0 and its
denominator is admissible (nonzero leading coefficient and nonzero sum) —
facts every Butterworth high-pass design satisfies — the seeded chain maps
every nonempty constant series to the all-zero series of that length: the
high-pass stage has DC gain 0 and annihilates the constant, and the
remaining seeded stages preserve the zero series exactly. -/
theorem eeg_board_filter_const_to_zero
    (butterD : ℕ → ℚ → BType → List ℚ × List ℚ)
    (iirnotchD : ℚ → ℚ → List ℚ × List ℚ) (Fs : ℚ) (order : ℕ)
    (lowcut highcut notch_q c : ℚ) (n : ℕ) (hn : n ≠ 0)
    (hb : (butterD order (lowcut / (0.5 * Fs)) .highpass).1.sum = 0)
    (ha0 : (butterD order (lowcut / (0.5 * Fs)) .highpass).2.getD 0 0 ≠ 0)
    (hS : (butterD order (lowcut / (0.5 * Fs)) .highpass).2.sum ≠ 0) :
    eeg_board_filter butterD iirnotchD (List.replicate n c) Fs order lowcut highcut notch_q
      = .ok (List.replicate n 0) := by
  have h : (List.replicate n c) ≠ [] := by
    simp [Ne, List.replicate_eq_nil, hn]
  rw [eeg_board_filter_decomp _ _ _ _ _ _ _ _ h]
  have h1 : seededStage (butterD order (lowcut / (0.5 * Fs)) .highpass) (List.replicate n c)
      = List.replicate n 0 := by
    have h2 := seededStage_const (butterD order (lowcut / (0.5 * Fs)) .highpass) ha0 hS n c
    rw [hb] at h2
    simpa using h2
  rw [h1]
  simp [seededStage_zero]

/-- Witness: the constant series `7, 7, 7` is annihilated to `0, 0, 0` by
the chain with the concrete demo coefficients. -/
theorem eeg_board_filter_const_to_zero_witness :
    ((3 : ℕ) ≠ 0 ∧ (butterDemo 1 ((1/2 : ℚ) / (0.5 * 250)) .highpass).1.sum = 0) ∧
      eeg_board_filter butterDemo iirnotchDemo (List.replicate 3 7) 250 1 (1/2) 45 30
        = .ok (List.replicate 3 0) :=
  ⟨⟨by decide, by norm_num [butterDemo]⟩,
    eeg_board_filter_const_to_zero butterDemo iirnotchDemo 250 1 (1/2) 45 30 7 3
      (by decide) (by norm_num [butterDemo]) (by norm_num [butterDemo])
      (by norm_num [butterDemo])⟩

/-- C3 counterexample: with gain 1, vref 4.5 V, avss 0 V, the top positive
code `2^23 - 1` maps to `6.75 - 4.5/2^23 ≈ 6.75`, which exceeds 4.5 by
more than 2 — it is not approximately 4.5 (the code's span is `±(vref -
avss)/gain` around the mid-rail 2.25, so the top code sits near
`vmid + 4.5`, not near `vref`). -/
theorem raw_to_volts_top_code_not_near_vref :
    raw_to_volts (2 ^ 23 - 1) (9 / 2) 0 1 = .ok (27 / 4 - (9 / 2) / 2 ^ 23) ∧
      (27 / 4 - (9 / 2) / (2 : ℚ) ^ 23) - 9 / 2 > 2 := by
  constructor
  · norm_num [raw_to_volts]
  · norm_num

/-- C3 amended: for every code and every profile with nonzero gain,
`raw_to_volts` equals `vmid + (code / 2^(24-1)) * ((vref - avss) / gain)` —
the divisor is hardcoded to `2^23`, i.e. `resolution_bits` fixed at the 24
of the only defined board profile; code 0 maps to `vmid = 2.25`; the top
code `2^23 - 1` maps to `6.75 - 4.5/2^23 ≈ 6.75`, not to ≈ 4.5. -/
theorem raw_to_volts_formula (data vref avss gain : ℚ) (hg : gain ≠ 0) :
    raw_to_volts data vref avss gain
        = .ok ((vref + avss) / 2 + data / 2 ^ (24 - 1) * ((vref - avss) / gain))
      ∧ raw_to_volts 0 (9 / 2) 0 1 = .ok (9 / 4)
      ∧ raw_to_volts (2 ^ 23 - 1) (9 / 2) 0 1 = .ok (27 / 4 - (9 / 2) / 2 ^ 23) := by
  refine ⟨by simp [raw_to_volts, hg], by norm_num [raw_to_volts], by norm_num [raw_to_volts]⟩

/-- Witness for the calibration formula at gain 3. -/
theorem raw_to_volts_formula_witness :
    (3 : ℚ) ≠ 0 ∧ raw_to_volts 5 (9 / 2) 0 3
      = .ok ((9 / 2 + 0) / 2 + 5 / 2 ^ (24 - 1) * ((9 / 2 - 0) / 3)) :=
  ⟨by norm_num, (raw_to_volts_formula 5 (9 / 2) 0 3 (by norm_num)).1⟩

/-- C7 counterexample: a negative gain is accepted: `raw_to_volts` computes
and returns an ordinary value (the mirrored mapping) rather than raising
`ConfigurationError` (which the code never defines). -/
theorem raw_to_volts_negative_gain_returns :
    raw_to_volts 0 (9 / 2) 0 (-1) = .ok (9 / 4) ∧
      raw_to_volts 0 (9 / 2) 0 (-1) ≠ .error .configurationError := by
  have h : raw_to_volts 0 (9 / 2) 0 (-1) = .ok (9 / 4) := by norm_num [raw_to_volts]
  exact ⟨h, by rw [h]; simp⟩

/-- C7 amended: `raw_to_volts` performs no gain validation: every strictly
negative gain yields an ordinary `.ok` value, and a zero gain raises
`ZeroDivisionError` from the scalar division `(vref - avss) / gain` — in
neither case a `ConfigurationError`. -/
theorem raw_to_volts_no_gain_validation (data vref avss gain : ℚ) (hg : gain < 0) :
    raw_to_volts data vref avss gain
        = .ok ((vref + avss) / 2 + data / 2 ^ 23 * ((vref - avss) / gain))
      ∧ raw_to_volts data vref avss 0 = .error .zeroDivisionError := by
  constructor
  · simp [raw_to_volts, hg.ne]
  · simp [raw_to_volts]

/-- Witness: gain `-2` passes through and gain 0 divides by zero. -/
theorem raw_to_volts_no_gain_validation_witness :
    (-2 : ℚ) < 0 ∧
      (raw_to_volts 1 (9 / 2) 0 (-2)
          = .ok ((9 / 2 + 0) / 2 + 1 / 2 ^ 23 * ((9 / 2 - 0) / (-2)))
        ∧ raw_to_volts 1 (9 / 2) 0 0 = .error .zeroDivisionError) :=
  ⟨by norm_num, raw_to_volts_no_gain_validation 1 (9 / 2) 0 (-2) (by norm_num)⟩

/-- C8 counterexample: for an identifier whose board token is the
unrecognized `boardFoo`, resolution fails with `UnboundLocalError` (the
read of the never-assigned `vref`), not with `UnsupportedBoardError` — no
such exception class exists in the code; it does not default silently
either. -/
theorem get_board_attributes_unknown_board_unbound :
    get_board_attributes "a_b_gain1_boardFoo_c" = .error .unboundLocalError ∧
      get_board_attributes "a_b_gain1_boardFoo_c" ≠ .error .unsupportedBoardError := by
  have h : get_board_attributes "a_b_gain1_boardFoo_c" = .error .unboundLocalError := rfl
  exact ⟨h, by rw [h]; simp⟩

/-- C8 amended: whenever the identifier splits into at least four
underscore tokens, the gain token parses as a float, and the board token
differs from the single recognized name `boardAds1299`, board-profile
resolution raises `UnboundLocalError` instead of defaulting to any
profile. -/
theorem get_board_attributes_unknown_board (fname : String)
    (htok : 3 < (splitChars '_' fname.toList).length)
    (hgain : (pyFloat (((splitChars '_' fname.toList).getD 2 []).drop 4)).isSome)
    (hboard : (splitChars '_' fname.toList).getD 3 [] ≠ "boardAds1299".toList) :
    get_board_attributes fname = .error .unboundLocalError := by
  have h1 : ¬((splitChars '_' fname.toList).length ≤ 3) := by omega
  obtain ⟨g, hg⟩ := Option.isSome_iff_exists.mp hgain
  simp only [List.getD_eq_getElem?_getD, String.toList] at hg hboard h1
  simp [get_board_attributes, h1, hg, hboard]

/-- Witness: a well-formed identifier with board token `boardXyz`. -/
theorem get_board_attributes_unknown_board_witness :
    (splitChars '_' ("a_b_gain2_boardXyz_c").toList).getD 3 [] ≠ "boardAds1299".toList ∧
      get_board_attributes "a_b_gain2_boardXyz_c" = .error .unboundLocalError :=
  ⟨by decide,
    get_board_attributes_unknown_board "a_b_gain2_boardXyz_c" (by decide) (by decide)
      (by decide)⟩

/-- `fftfreq` produces one label per FFT bin. -/
theorem fftfreq_length (n : ℕ) (d : ℚ) : (fftfreq n d).length = n := by
  simp [fftfreq]

/-- Filtering the zipped (frequency, value) pairs on a frequency predicate
and projecting the frequencies back out is just filtering the frequency
list, provided there are at least as many values as frequencies. -/
theorem zip_filter_map_fst (p : ℚ → Bool) :
    ∀ (as : List ℚ) (bs : List (ℚ × ℚ)), as.length ≤ bs.length →
      (((as.zip bs).filter fun q => p q.1).map fun q => q.1) = as.filter p := by
  intro as
  induction as with
  | nil => intro bs _; simp
  | cons x xs ih =>
    intro bs hb
    cases bs with
    | nil => simp at hb
    | cons y ys =>
      have hb' : xs.length ≤ ys.length := by simpa using hb
      cases hp : p x <;>
        simp [List.zip_cons_cons, List.filter_cons, hp, ih ys hb']

/-- The strictly positive entries of `fftfreq n (1/Fs)` are exactly the
labels of bins `1 .. (n+1)/2 - 1`: the zero bin, the negative half and (for
even `n`) the negatively-labelled Nyquist bin are all dropped. -/
theorem fftfreq_filter_pos (n : ℕ) (Fs : ℚ) (hFs : 0 < Fs) :
    (fftfreq n (1 / Fs)).filter (fun f => decide (0 < f))
      = (List.range' 1 ((n + 1) / 2 - 1)).map (fun (k : ℕ) => (k : ℚ) / (1 / Fs * n)) := by
  rcases Nat.eq_zero_or_pos n with rfl | hn
  · simp [fftfreq]
  · have hnq : (0 : ℚ) < n := by exact_mod_cast hn
    have hd : 0 < 1 / Fs * n := mul_pos (by positivity) hnq
    have hm1 : 1 ≤ (n + 1) / 2 := by omega
    have hmn : (n + 1) / 2 ≤ n := by omega
    have hsplit : List.range n
        = List.range' 0 ((n + 1) / 2) ++ List.range' ((n + 1) / 2) (n - (n + 1) / 2) := by
      have h2 : (n - (n + 1) / 2) + (n + 1) / 2 = n := by omega
      calc List.range n = List.range' 0 n := List.range_eq_range' n
        _ = List.range' 0 ((n - (n + 1) / 2) + (n + 1) / 2) := by rw [h2]
        _ = List.range' 0 ((n + 1) / 2) ++ List.range' (0 + 1 * ((n + 1) / 2)) (n - (n + 1) / 2) :=
            (List.range'_append 0 ((n + 1) / 2) (n - (n + 1) / 2) 1).symm
        _ = List.range' 0 ((n + 1) / 2) ++ List.range' ((n + 1) / 2) (n - (n + 1) / 2) := by
            norm_num
    rw [fftfreq, hsplit, List.map_append, List.filter_append]
    have hpart2 : ((List.range' ((n + 1) / 2) (n - (n + 1) / 2)).map fun k =>
        if k < (n + 1) / 2 then (k : ℚ) / (1 / Fs * n) else ((k : ℚ) - n) / (1 / Fs * n)).filter
          (fun f => decide (0 < f)) = [] := by
      rw [List.filter_eq_nil]
      intro f hf
      simp only [List.mem_map] at hf
      obtain ⟨k, hk, rfl⟩ := hf
      have hk' := List.mem_range'_1.mp hk
      rw [if_neg (by omega)]
      have hkn : (k : ℚ) < n := by exact_mod_cast (by omega : k < n)
      have hneg : ((k : ℚ) - n) / (1 / Fs * n) < 0 := div_neg_of_neg_of_pos (by linarith) hd
      simpa using not_lt.mpr (le_of_lt hneg)
    have hhead : List.range' 0 ((n + 1) / 2) = 0 :: List.range' 1 ((n + 1) / 2 - 1) := by
      have h3 : (n + 1) / 2 = ((n + 1) / 2 - 1) + 1 := by omega
      conv_lhs => rw [h3]
      rw [List.range'_succ]
    have hpart1 : ((List.range' 0 ((n + 1) / 2)).map fun k =>
        if k < (n + 1) / 2 then (k : ℚ) / (1 / Fs * n) else ((k : ℚ) - n) / (1 / Fs * n)).filter
          (fun f => decide (0 < f))
        = (List.range' 1 ((n + 1) / 2 - 1)).map (fun (k : ℕ) => (k : ℚ) / (1 / Fs * n)) := by
      rw [hhead, List.map_cons, List.filter_cons]
      rw [if_pos (by omega : (0 : ℕ) < (n + 1) / 2)]
      have hz : ¬ (0 : ℚ) < ((0 : ℕ) : ℚ) / (1 / Fs * n) := by simp
      rw [if_neg (by simpa using hz)]
      have htail : ∀ k ∈ List.range' 1 ((n + 1) / 2 - 1),
          (if k < (n + 1) / 2 then (k : ℚ) / (1 / Fs * n) else ((k : ℚ) - n) / (1 / Fs * n))
            = (k : ℚ) / (1 / Fs * n) := by
        intro k hk
        have hk' := List.mem_range'_1.mp hk
        rw [if_pos (by omega)]
      rw [List.map_congr_left htail]
      have hall : ∀ f ∈ (List.range' 1 ((n + 1) / 2 - 1)).map (fun (k : ℕ) => (k : ℚ) / (1 / Fs * n)),
          decide (0 < f) = true := by
        intro f hf
        simp only [List.mem_map] at hf
        obtain ⟨k, hk, rfl⟩ := hf
        have hk' := List.mem_range'_1.mp hk
        have hkq : (0 : ℚ) < k := by exact_mod_cast (by omega : 0 < k)
        simpa using div_pos hkq hd
      rw [List.filter_eq_self.mpr hall]
    rw [hpart1, hpart2, List.append_nil]

/-- Reading a power bin out of the mapped `|v|^2 / N` list. -/
theorem getD_map_normSq (l : List (ℚ × ℚ)) (N : ℕ) (i : ℕ) (hi : i < l.length) :
    (l.map fun v => normSq v / N).getD i 0 = normSq (l.getD i (0, 0)) / N := by
  rw [List.getD_eq_getElem _ _ (by simpa using hi), List.getElem_map,
    List.getD_eq_getElem _ _ hi]

/-- C4: `get_fft` keeps exactly the strictly positive frequencies — the
zero bin and every negative / mirror bin is excluded, nothing else — and
the power sequence is `|v|^2 / N` bin-for-bin with `N` the input length.
Holds for every transform of the numpy output length `N`. -/
theorem get_fft_positive_freqs_and_power (fft : List ℚ → List (ℚ × ℚ))
    (signal : List ℚ) (Fs : ℚ) (hFs : 0 < Fs)
    (hlen : (fft signal).length = signal.length) :
    (∀ f ∈ (get_fft fft signal Fs).2.1, 0 < f)
      ∧ (get_fft fft signal Fs).2.1
          = (fftfreq signal.length (1 / Fs)).filter (fun f => decide (0 < f))
      ∧ (get_fft fft signal Fs).2.2.length = (get_fft fft signal Fs).1.length
      ∧ ∀ i, i < (get_fft fft signal Fs).1.length →
          (get_fft fft signal Fs).2.2.getD i 0
            = normSq ((get_fft fft signal Fs).1.getD i (0, 0)) / signal.length := by
  have hfr : (get_fft fft signal Fs).2.1
      = (fftfreq signal.length (1 / Fs)).filter (fun f => decide (0 < f)) := by
    simp only [get_fft]
    exact zip_filter_map_fst (fun f => decide (0 < f)) _ _ (by rw [fftfreq_length, hlen])
  have hmap : (get_fft fft signal Fs).2.2
      = (get_fft fft signal Fs).1.map fun v => normSq v / signal.length := by
    simp [get_fft]
  refine ⟨?_, hfr, ?_, ?_⟩
  · intro f hf
    rw [hfr] at hf
    simpa using List.of_mem_filter hf
  · rw [hmap]; simp
  · intro i hi
    rw [hmap]
    exact getD_map_normSq _ _ i hi

/-- Witness: the frequency selection on a concrete 4-sample series. -/
theorem get_fft_positive_freqs_and_power_witness :
    (0 : ℚ) < 4 ∧ (get_fft fftDemo [1, 2, 3, 4] 4).2.1
      = (fftfreq ([1, 2, 3, 4] : List ℚ).length (1 / 4)).filter (fun f => decide (0 < f)) :=
  ⟨by norm_num,
    (get_fft_positive_freqs_and_power fftDemo [1, 2, 3, 4] 4 (by norm_num)
      (by simp [fftDemo])).2.1⟩

/-- C10: for an even-length input, `get_fft` returns exactly `N/2 - 1`
bins: besides the zero bin and the negative half, the Nyquist bin
`k = N/2` is excluded because `fftfreq` labels it with the negative
frequency `-Fs/2`. -/
theorem get_fft_even_length_nyquist_excluded (fft : List ℚ → List (ℚ × ℚ))
    (signal : List ℚ) (Fs : ℚ) (hFs : 0 < Fs)
    (hlen : (fft signal).length = signal.length) (heven : 2 ∣ signal.length) :
    (get_fft fft signal Fs).2.1.length = signal.length / 2 - 1
      ∧ (0 < signal.length →
          (fftfreq signal.length (1 / Fs)).getD (signal.length / 2) 0 = -(Fs / 2)) := by
  constructor
  · have hfr : (get_fft fft signal Fs).2.1
        = (fftfreq signal.length (1 / Fs)).filter (fun f => decide (0 < f)) := by
      simp only [get_fft]
      exact zip_filter_map_fst (fun f => decide (0 < f)) _ _ (by rw [fftfreq_length, hlen])
    rw [hfr, fftfreq_filter_pos _ _ hFs]
    obtain ⟨k, hk⟩ := heven
    rw [List.length_map, List.length_range']
    omega
  · intro hpos
    obtain ⟨k, hk⟩ := heven
    have hkpos : 0 < k := by omega
    have hidx : signal.length / 2 = k := by omega
    rw [hidx, fftfreq, getD_map_range _ signal.length k (by omega)]
    rw [if_neg (by omega)]
    have hFs0 : Fs ≠ 0 := ne_of_gt hFs
    have hk0 : (k : ℚ) ≠ 0 := by exact_mod_cast hkpos.ne'
    rw [hk]
    push_cast
    field_simp
    ring

/-- Witness: with `N = 4` exactly one bin survives and the Nyquist bin is
labelled `-2` Hz at `Fs = 4`. -/
theorem get_fft_even_length_nyquist_excluded_witness :
    2 ∣ ([1, 2, 3, 4] : List ℚ).length ∧
      (get_fft fftDemo [1, 2, 3, 4] 4).2.1.length = ([1, 2, 3, 4] : List ℚ).length / 2 - 1 ∧
      (fftfreq ([1, 2, 3, 4] : List ℚ).length (1 / 4)).getD
          (([1, 2, 3, 4] : List ℚ).length / 2) 0 = -(4 / 2) :=
  ⟨by decide,
    (get_fft_even_length_nyquist_excluded fftDemo [1, 2, 3, 4] 4 (by norm_num)
      (by simp [fftDemo]) (by decide)).1,
    (get_fft_even_length_nyquist_excluded fftDemo [1, 2, 3, 4] 4 (by norm_num)
      (by simp [fftDemo]) (by decide)).2 (by decide)⟩

/-- Pointwise product of a window with an all-zero vector is all-zero. -/
theorem zipWith_mul_replicate_zero :
    ∀ (win : List ℚ) (L : ℕ),
      List.zipWith (fun w v => w * v) win (List.replicate L 0)
        = List.replicate (min win.length L) 0 := by
  intro win
  induction win with
  | nil => intro L; simp
  | cons w ws ih =>
    intro L
    cases L with
    | zero => simp
    | succ m => simp [List.replicate_succ, ih m, Nat.succ_min_succ]

/-- C5 amended, general form: for every window and every rFFT that maps
zero vectors to zero bins (as the true rFFT does), `plot_spectrogram` on an
all-zero series returns an `Sxx` whose every entry is exactly 0 — the raw
density power, not its decibel image. -/
theorem plot_spectrogram_zero_input (rfft : List ℚ → List (ℚ × ℚ)) (win : List ℚ)
    (Fs highcut : ℚ) (n nperseg : ℕ) (noverlap : Option ℕ)
    (hz : ∀ l : List ℚ, (∀ x ∈ l, x = 0) → ∀ y ∈ rfft l, y = (0, 0)) :
    ((plot_spectrogram rfft win (List.replicate n 0) Fs highcut nperseg noverlap).2.2.all
      fun row => row.all fun p => decide (p = 0)) = true := by
  rw [List.all_eq_true]
  intro row hrow
  rw [List.all_eq_true]
  intro p hp
  simp only [plot_spectrogram, spectrogram, List.mem_map] at hrow
  obtain ⟨seg, hseg, rfl⟩ := hrow
  have hseg0 : ∀ x ∈ seg, x = (0 : ℚ) := by
    intro x hx
    simp only [stftSegments] at hseg
    by_cases hc : (List.replicate n (0 : ℚ)).length < nperseg
        ∨ nperseg - noverlap.getD (nperseg / 2) = 0
    · rw [if_pos hc] at hseg
      simp at hseg
    · rw [if_neg hc] at hseg
      simp only [List.mem_map] at hseg
      obtain ⟨k, hk, rfl⟩ := hseg
      exact List.eq_of_mem_replicate (List.drop_subset _ _ (List.take_subset _ _ hx))
  simp only [segPsd, List.mem_map, List.mem_range] at hp
  obtain ⟨k, hk, rfl⟩ := hp
  have hdet : ∀ x ∈ detrendConst seg, x = (0 : ℚ) := by
    intro x hx
    simp only [detrendConst, List.mem_map] at hx
    obtain ⟨v, hv, rfl⟩ := hx
    rw [hseg0 v hv, List.sum_eq_zero hseg0]
    simp
  have hwin : ∀ x ∈ List.zipWith (fun w v => w * v) win (detrendConst seg), x = (0 : ℚ) := by
    rw [List.eq_replicate_of_mem hdet, zipWith_mul_replicate_zero]
    intro x hx
    exact List.eq_of_mem_replicate hx
  have hXk : (rfft (List.zipWith (fun w v => w * v) win (detrendConst seg))).getD k (0, 0)
      = (0, 0) := by
    rcases Nat.lt_or_ge k (rfft (List.zipWith (fun w v => w * v) win
        (detrendConst seg))).length with h | h
    · rw [List.getD_eq_getElem _ _ h]
      exact hz _ hwin _ (List.getElem_mem h)
    · exact List.getD_eq_default _ _ h
  rw [hXk]
  simp [normSq]

/-- Witness: with a concrete window and the concrete zero-preserving rFFT,
the spectrogram of eight zero samples is all-zero. -/
theorem plot_spectrogram_zero_input_witness :
    ((plot_spectrogram rfftDemo [1, 1, 1, 1] (List.replicate 8 0) 4 50 4 none).2.2.all
      fun row => row.all fun p => decide (p = 0)) = true :=
  plot_spectrogram_zero_input rfftDemo [1, 1, 1, 1] 4 50 8 4 none
    (by
      intro l hl y hy
      simp only [rfftDemo, List.mem_map] at hy
      obtain ⟨q, hq, rfl⟩ := hy
      rw [hl q (List.take_subset _ _ hq)])

/-- C5 counterexample: on the all-zero series `plot_spectrogram` returns
`Sxx = [[0, 0, 0], [0, 0, 0], [0, 0, 0]]` — raw power values, all 0 —
whereas `10 * log10(1e-10)` (the claimed decibel value for silence) is
strictly negative (it is `-100`); the decibel image exists only inside the
`pcolormesh` plotting call, never in the returned values. -/
theorem plot_spectrogram_returns_raw_power :
    (plot_spectrogram rfftDemo [1, 1, 1, 1] (List.replicate 8 0) 4 50 4 none).2.2
      = [[0, 0, 0], [0, 0, 0], [0, 0, 0]] ∧
      (10 : ℝ) * Real.logb 10 (1 / 10 ^ 10) < 0 := by
  constructor
  · norm_num [plot_spectrogram, spectrogram, stftSegments, segPsd, detrendConst, rfftDemo,
      normSq, List.range_succ, List.replicate]
  · have hlog : Real.logb 10 ((1 : ℝ) / 10 ^ 10) < 0 :=
      Real.logb_neg (by norm_num) (by norm_num) (by norm_num)
    linarith
